import Mathlib

/-!
Verification of the nixspace workspace manager (Rust sources under src/)
against its natural-language specification.

The Rust code is shallowly embedded: each Rust function named below is
translated into a Lean definition of the same name (in camelCase).  Ordered
maps (BTreeMap) become association lists ordered by the byte order on keys,
sets become lists, and fallible or possibly panicking code returns Option,
where `none` models every abnormal outcome (an Err return, a panic such as
unwrap or todo, or divergence / exhausted fuel of a loop).  Subprocess
collaborators (git ls-remote listings, the glob matcher crate) are passed in
as explicit arguments.
-/

namespace Nixspace

/-! ## Ordered association lists, the embedding of BTreeMap -/

/-- Byte order on characters, matching the Ord used by BTreeMap over String
(UTF-8 byte order coincides with codepoint order). -/
def charListLt : List Char → List Char → Bool
  | [], [] => false
  | [], _ :: _ => true
  | _ :: _, [] => false
  | a :: as, b :: bs =>
    if a.val < b.val then true else if b.val < a.val then false else charListLt as bs

def strLt (a b : String) : Bool := charListLt a.data b.data

/-- The embedding of BTreeMap: an association list kept sorted by key. -/
abbrev AList (α : Type) := List (String × α)

/-- Lookup of a key, the embedding of BTreeMap::get. -/
def findKey {α : Type} (k : String) : AList α → Option α
  | [] => none
  | (j, v) :: rest => if k = j then some v else findKey k rest

/-- The embedding of BTreeMap::contains_key. -/
def containsKey {α : Type} (k : String) (m : AList α) : Bool :=
  (findKey k m).isSome

/-- The embedding of BTreeMap::insert: replace the value at an existing key,
otherwise insert at the position given by the key order. -/
def insertSorted {α : Type} (k : String) (v : α) : AList α → AList α
  | [] => [(k, v)]
  | (j, w) :: rest =>
    if k = j then (k, v) :: rest
    else if strLt k j then (k, v) :: (j, w) :: rest
    else (j, w) :: insertSorted k v rest

/-- The embedding of BTreeMap::remove: drop the entry of a key. -/
def eraseKey {α : Type} (k : String) : AList α → AList α
  | [] => []
  | (j, v) :: rest => if j = k then rest else (j, v) :: eraseKey k rest

/-- The embedding of BTreeMap::retain with predicate `key != k`
(used by LockFile::rename_input): drop every entry of the key. -/
def eraseAll {α : Type} (k : String) (m : AList α) : AList α :=
  m.filter (fun kv => kv.1 ≠ k)

/-- In-place update of the value stored at a key, the embedding of a
mutation through BTreeMap::get_mut. -/
def setNode {α : Type} (k : String) (v : α) : AList α → AList α
  | [] => []
  | (j, w) :: rest => if k = j then (j, v) :: rest else (j, w) :: setNode k v rest

/-- The embedding of BTreeMap::keys (keys in storage order). -/
def keysOf {α : Type} (m : AList α) : List String := m.map Prod.fst

/-- Update every value of the map, keys unchanged (a `for (_, v) in &mut map`
loop in the source). -/
def mapVals {α : Type} (f : α → α) (m : AList α) : AList α :=
  m.map (fun kv => (kv.1, f kv.2))

/-! ## src/lockfile.rs: FlakeType and InputSpec -/

/-- The embedding of lockfile.rs FlakeType. -/
inductive FlakeType
  | path
  | git
  | mercurial
  | tarball
  | file
  | gitHub
  | gitLab
  | sourceHut
  | indirect
deriving DecidableEq, Repr

/-- The embedding of lockfile.rs InputSpec. -/
structure InputSpec where
  flakeType : FlakeType
  narHash : Option String
  url : Option String
  owner : Option String
  repo : Option String
  dir : Option String
  rev : Option String
  gitRef : Option String
  revCount : Option Int
  lastModified : Option Int
deriving DecidableEq, Repr

/-! ## src/flake.rs: the reference URL algebra -/

/-- The embedding of flake.rs split_once / split_scheme.  Rust splits the
string on every occurrence of the separator and concatenates the pieces
after the first one back WITHOUT the separator, so every later colon is
dropped from the remainder. -/
def splitScheme (url : String) : String × String :=
  let cs := url.data
  let scheme := cs.takeWhile (· ≠ ':')
  let rest := (cs.dropWhile (· ≠ ':')).drop 1
  (scheme.asString, (rest.filter (· ≠ ':')).asString)

/-- The embedding of the querystring crate querify: split on each ampersand,
split each piece on equals signs, keep the first two components of pieces
that have at least two. -/
def splitOnChar (c : Char) : List Char → List (List Char)
  | [] => [[]]
  | x :: xs =>
    if x = c then [] :: splitOnChar c xs
    else
      match splitOnChar c xs with
      | [] => [[x]]
      | g :: gs => (x :: g) :: gs

def querify (s : String) : List (String × String) :=
  (splitOnChar '&' s.data).filterMap fun pair =>
    match splitOnChar '=' pair with
    | k :: v :: _ => some (k.asString, v.asString)
    | _ => none

/-- The embedding of the querystring crate stringify: append key=value pairs
each followed by an ampersand. -/
def stringifyQS (ps : List (String × String)) : String :=
  ps.foldl (fun acc kv => acc ++ kv.1 ++ "=" ++ kv.2 ++ "&") ""

/-- The embedding of flake.rs params_to_string: empty parameter lists print
nothing, otherwise a question mark plus the stringified pairs with the
trailing ampersand popped. -/
def paramsToString (ps : List (String × String)) : String :=
  if ps.isEmpty then "" else "?" ++ (stringifyQS ps).data.dropLast.asString

/-- Query capture helper shared by the regex embeddings below: a query part
matches only as a question mark followed by at least one character. -/
def queryOf : List Char → String
  | '?' :: c :: cs => (c :: cs).asString
  | _ => ""

/-- The embedding of the FlakeIndirect regex ([^/]+)(?:/([^/]+)(?:/([^/]+))?)?
with the leftmost-first match semantics of the regex crate: the match starts
at the first character that is not a slash, each group is a greedy nonempty
run, and the optional groups are skipped when the following slash or run is
absent. -/
def matchIndirect (cs0 : List Char) : Option (String × Option String × Option String) :=
  let cs := cs0.dropWhile (· = '/')
  if cs.isEmpty then none
  else
    let g1 := cs.takeWhile (· ≠ '/')
    match cs.dropWhile (· ≠ '/') with
    | '/' :: r2 =>
      let g2 := r2.takeWhile (· ≠ '/')
      if g2.isEmpty then some (g1.asString, none, none)
      else
        match r2.dropWhile (· ≠ '/') with
        | '/' :: r4 =>
          let g3 := r4.takeWhile (· ≠ '/')
          if g3.isEmpty then some (g1.asString, some g2.asString, none)
          else some (g1.asString, some g2.asString, some g3.asString)
        | _ => some (g1.asString, some g2.asString, none)
    | _ => some (g1.asString, none, none)

/-- The embedding of the FlakePath regex ([^?]+)(?:[?](.+))?$ (anchored at the
end): the path is a nonempty run without question marks, optionally followed
by a question mark and a nonempty query running to the end; on failure the
match is retried one character further right. -/
def matchPathAt : List Char → Option (String × String)
  | [] => none
  | c :: cs =>
    let g1 := (c :: cs).takeWhile (· ≠ '?')
    match (c :: cs).dropWhile (· ≠ '?') with
    | [] => if g1.isEmpty then none else some (g1.asString, "")
    | '?' :: [] => matchPathAt cs
    | '?' :: q :: qs =>
      if g1.isEmpty then matchPathAt cs else some (g1.asString, (q :: qs).asString)
    | _ :: _ => none

/-- Backtracking helper for the server url regex: when the server run is
followed by no slash, the greedy run gives characters back from its right
end until a nonempty path group (beginning with a non question mark
character) remains. -/
def backtrackSrv (run : List Char) : Option (List Char × List Char) :=
  let t := (run.reverse.takeWhile (· = '?')).length
  if t + 2 ≤ run.length then
    let k := run.length - t - 1
    some (run.take k, run.drop k)
  else none

/-- The no-server alternative of the server url regex: the path group is a
greedy nonempty run without question marks starting here, optionally
followed by a query. -/
def noServerAt (cs : List Char) : Option (Option String × String × String) :=
  let p := cs.takeWhile (· ≠ '?')
  if p.isEmpty then none
  else some (none, p.asString, queryOf (cs.dropWhile (· ≠ '?')))

/-- One match attempt of the parse_server_url regex
(?://([^/]+))?([^?]+)(?:[?](.+))? at a fixed start position: the optional
double slash plus server run is preferred when it leaves a nonempty path
group, otherwise the alternative without a server group is taken. -/
def matchServerAt (cs : List Char) : Option (Option String × String × String) :=
  match cs with
  | '/' :: '/' :: rest =>
    let run := rest.takeWhile (· ≠ '/')
    let after := rest.dropWhile (· ≠ '/')
    if run.isEmpty then noServerAt cs
    else if after.isEmpty then
      match backtrackSrv run with
      | some (srv, tail) =>
        some (some srv.asString, (tail.takeWhile (· ≠ '?')).asString,
          queryOf (tail.dropWhile (· ≠ '?')))
      | none => noServerAt cs
    else
      some (some run.asString, (after.takeWhile (· ≠ '?')).asString,
        queryOf (after.dropWhile (· ≠ '?')))
  | _ => noServerAt cs

/-- Leftmost-first wrapper of matchServerAt: retry one character further
right upon failure. -/
def matchServer : List Char → Option (Option String × String × String)
  | [] => none
  | c :: cs =>
    match matchServerAt (c :: cs) with
    | some r => some r
    | none => matchServer cs

/-- The embedding of the TarballUrl regex //(.+): the first double slash with
at least one further character captures everything after it. -/
def matchTarball : List Char → Option String
  | '/' :: '/' :: c :: rest => some ((c :: rest).asString)
  | _ :: rest => matchTarball rest
  | [] => none

/-- One match attempt of the parse_simple_url regex
([^/]+)/([^/]+)(?:/([^?]+))?(?:[?](.+))? at a fixed start position.  The
owner and repo groups are greedy nonempty runs without slashes (the repo run
may contain question marks), the optional third group is a nonempty run
without question marks after a further slash, and the query group only
matches directly after the third group. -/
def matchSimpleAt (cs : List Char) : Option (String × String × Option String × String) :=
  let owner := cs.takeWhile (· ≠ '/')
  if owner.isEmpty then none
  else
    match cs.dropWhile (· ≠ '/') with
    | '/' :: rest =>
      let repo := rest.takeWhile (· ≠ '/')
      if repo.isEmpty then none
      else
        match rest.dropWhile (· ≠ '/') with
        | '/' :: rest2 =>
          let rr := rest2.takeWhile (· ≠ '?')
          if rr.isEmpty then some (owner.asString, repo.asString, none, "")
          else
            some (owner.asString, repo.asString, some rr.asString,
              queryOf (rest2.dropWhile (· ≠ '?')))
        | _ => some (owner.asString, repo.asString, none, "")
    | _ => none

/-- Leftmost-first wrapper of matchSimpleAt. -/
def matchSimple : List Char → Option (String × String × Option String × String)
  | [] => none
  | c :: cs =>
    match matchSimpleAt (c :: cs) with
    | some r => some r
    | none => matchSimple cs

/-- The embedding of the flake.rs reference variants (the Rust structs
FlakeIndirect, FlakePath, GitUrl, MercurialUrl, TarballUrl, SimpleGitUrl
behind the FlakeRef trait), as one closed sum. -/
inductive FlakeRef
  | indirect (flakeId : String) (revOrRef : Option String) (rev : Option String)
  | path (p : String) (params : List (String × String))
  | git (scheme : String) (server : Option String) (p : String)
      (params : List (String × String))
  | mercurial (scheme : String) (server : Option String) (p : String)
      (params : List (String × String))
  | tarball (scheme : String) (url : String)
  | simpleGit (scheme : String) (domain : String) (owner : String) (repo : String)
      (revOrRef : Option String) (params : List (String × String))
deriving DecidableEq, Repr

/-- The embedding of flake.rs parse: split the scheme off at the first colon
and dispatch on it exactly; an unrecognized scheme is an error. -/
def parse (url : String) : Option FlakeRef :=
  let sr := splitScheme url
  let rest := sr.2
  match sr.1 with
  | "flake" => (matchIndirect rest.data).map fun g => .indirect g.1 g.2.1 g.2.2
  | "path" => (matchPathAt rest.data).map fun g => .path g.1 (querify g.2)
  | "git+http" => (matchServer rest.data).map fun g => .git "http" g.1 g.2.1 (querify g.2.2)
  | "git+https" => (matchServer rest.data).map fun g => .git "https" g.1 g.2.1 (querify g.2.2)
  | "git+ssh" => (matchServer rest.data).map fun g => .git "ssh" g.1 g.2.1 (querify g.2.2)
  | "git+file" => (matchServer rest.data).map fun g => .git "file" g.1 g.2.1 (querify g.2.2)
  | "mc+http" => (matchServer rest.data).map fun g => .mercurial "http" g.1 g.2.1 (querify g.2.2)
  | "mc+https" => (matchServer rest.data).map fun g => .mercurial "https" g.1 g.2.1 (querify g.2.2)
  | "mc+ssh" => (matchServer rest.data).map fun g => .mercurial "ssh" g.1 g.2.1 (querify g.2.2)
  | "mc+file" => (matchServer rest.data).map fun g => .mercurial "file" g.1 g.2.1 (querify g.2.2)
  | "tarball+http" => (matchTarball rest.data).map fun u => .tarball "http" u
  | "tarball+https" => (matchTarball rest.data).map fun u => .tarball "https" u
  | "tarball+file" => (matchTarball rest.data).map fun u => .tarball "file" u
  | "github" => (matchSimple rest.data).map fun g =>
      .simpleGit "github" "github.com/" g.1 g.2.1 g.2.2.1 (querify g.2.2.2)
  | "gitlab" => (matchSimple rest.data).map fun g =>
      .simpleGit "gitlab" "gitlab.com/" g.1 g.2.1 g.2.2.1 (querify g.2.2.2)
  | "sourcehut" => (matchSimple rest.data).map fun g =>
      .simpleGit "sourcehut" "git.sr.ht/~" g.1 g.2.1 g.2.2.1 (querify g.2.2.2)
  | _ => none

/-- The embedding of flake.rs fmt_simple_url. -/
def fmtSimpleUrl (scheme owner repo : String) (revOrRef : Option String)
    (params : List (String × String)) : String :=
  scheme ++ ":" ++ owner ++ "/" ++ repo
    ++ ((revOrRef.map (fun s => "/" ++ s)).getD "")
    ++ paramsToString params

/-- The embedding of the per-variant flake_url printers.  Note that the
source SimpleGitUrl::flake_url passes the literal string "github" to
fmt_simple_url instead of the stored scheme field. -/
def FlakeRef.flakeUrl : FlakeRef → String
  | .indirect flakeId rr rv =>
    "flake:" ++ flakeId ++ ((rr.map (fun s => "/" ++ s)).getD "")
      ++ ((rv.map (fun s => "/" ++ s)).getD "")
  | .path p ps => "path:" ++ p ++ paramsToString ps
  | .git scheme srv p ps =>
    "git+" ++ scheme ++ ":" ++ ((srv.map (fun s => "//" ++ s)).getD "")
      ++ p ++ paramsToString ps
  | .mercurial scheme srv p ps =>
    "mc+" ++ scheme ++ ":" ++ ((srv.map (fun s => "//" ++ s)).getD "")
      ++ p ++ paramsToString ps
  | .tarball scheme url => "tarball+" ++ scheme ++ "://" ++ url
  | .simpleGit _ _ owner repo rr ps => fmtSimpleUrl "github" owner repo rr ps

/-- The embedding of the per-variant flake_type methods.  The source
SimpleGitUrl::flake_type returns FlakeType::GitHub for every provider. -/
def FlakeRef.flakeType : FlakeRef → FlakeType
  | .indirect .. => .indirect
  | .path .. => .path
  | .git .. => .git
  | .mercurial .. => .mercurial
  | .tarball .. => .tarball
  | .simpleGit .. => .gitHub

/-- The embedding of the per-variant git_remote_url methods.  The source
MercurialUrl::git_remote_url returns None. -/
def FlakeRef.gitRemoteUrl : FlakeRef → Option String
  | .git scheme srv p _ =>
    some (scheme ++ ":" ++ ((srv.map (fun s => "//" ++ s)).getD "") ++ p)
  | .simpleGit _ domain owner repo _ _ =>
    some ("https://" ++ domain ++ owner ++ "/" ++ repo ++ ".git")
  | _ => none

/-- The embedding of the params lookup shared by Path, Git and Mercurial arg
methods: first pair with the given key. -/
def lookupParam (ps : List (String × String)) (a : String) : Option String :=
  (ps.find? (fun kv => kv.1 == a)).map (fun kv => kv.2)

/-- The embedding of the per-variant arg methods. -/
def FlakeRef.arg : FlakeRef → String → Option String
  | .indirect _ rr rv, a =>
    if a = "ref" then rr else if a = "rev" then rv else none
  | .path _ ps, a => lookupParam ps a
  | .git _ _ _ ps, a => lookupParam ps a
  | .mercurial _ _ _ ps, a => lookupParam ps a
  | .tarball _ _, _ => none
  | .simpleGit _ _ owner repo rr _, a =>
    if a = "owner" then some owner
    else if a = "repo" then some repo
    else if a = "rev_or_ref" then rr
    else none

/-- The embedding of the FlakeRef trait default infer_name. -/
def FlakeRef.inferName (r : FlakeRef) : Option String := r.arg "repo"

/-- The embedding of the FlakeRef trait default input_spec. -/
def FlakeRef.inputSpec (r : FlakeRef) : InputSpec :=
  { flakeType := r.flakeType
    narHash := none
    url := some r.flakeUrl
    owner := r.arg "owner"
    repo := r.arg "repo"
    dir := r.arg "dir"
    rev := r.arg "rev"
    gitRef := r.arg "ref"
    revCount := none
    lastModified := none }

/-! ## src/lockfile.rs: the lockfile model -/

/-- The embedding of lockfile.rs InputRef. -/
inductive InputRef
  | direct (name : String)
  | path (p : List String)
deriving DecidableEq, Repr

/-- The embedding of InputRef::rename: rewrite the head of the reference
(the whole value of a Direct, the first element of a Path) when it equals
the original name. -/
def InputRef.rename (orig new : String) : InputRef → InputRef
  | .direct n => if n = orig then .direct new else .direct n
  | .path [] => .path []
  | .path (h :: t) => if h = orig then .path (new :: t) else .path (h :: t)

/-- The embedding of lockfile.rs LockedRef. -/
structure LockedRef where
  flake : Option Bool
  locked : Option InputSpec
  original : Option InputSpec
  inputs : Option (AList InputRef)
deriving DecidableEq, Repr

/-- The embedding of lockfile.rs LockFile (`Nodes` is the ordered map from
node name to LockedRef). -/
structure LockFile where
  nodes : AList LockedRef
  root : String
  version : Int
deriving DecidableEq, Repr

/-- The embedding of LockedRef::empty. -/
def LockedRef.empty : LockedRef :=
  { flake := none, locked := none, original := none, inputs := some [] }

/-- The embedding of LockedRef::root, whose body in the source is the todo
macro: it panics unconditionally, modeled as none. -/
def LockedRef.root (_nodes : AList LockedRef) : Option LockedRef := none

/-- The embedding of LockFile::from_nodes: keep only the entries named root,
then build the root node with LockedRef::root (which panics). -/
def LockFile.fromNodes (nodes : AList LockedRef) : Option LockFile :=
  let newNodes := nodes.filter (fun kv => kv.1 = "root")
  (LockedRef.root newNodes).map fun rootNode =>
    { nodes := insertSorted "root" rootNode newNodes, root := "root", version := 7 }

/-- The embedding of LockFile::empty. -/
def LockFile.empty : Option LockFile := LockFile.fromNodes []

/-- The embedding of LockFile::get_input_spec. -/
def LockFile.getInputSpec (l : LockFile) (name : String) : Option InputSpec :=
  (findKey name l.nodes).bind (fun r => r.locked)

/-- The embedding of the mutually recursive pair LockFile::resolve_input /
LockFile::get_input_by_path, with the recursion of resolve_input on the
referenced InputRef inlined and a fuel argument bounding the recursion
depth.  Every unwrap of the source (a missing node, a node without an
inputs map, a missing input label, an empty path) is a panic, modeled as
none; none also covers exhausted fuel (the source can recurse forever on a
cyclic path reference). -/
def getInputByPath : Nat → LockFile → String → List String → Option String
  | 0, _, _, _ => none
  | _ + 1, _, nodeName, [] => some nodeName
  | fuel + 1, l, nodeName, h :: t =>
    match findKey nodeName l.nodes with
    | none => none
    | some node =>
      match node.inputs with
      | none => none
      | some ins =>
        match findKey h ins with
        | none => none
        | some r =>
          match r with
          | .direct i => getInputByPath fuel l i t
          | .path [] => none
          | .path (h2 :: t2) =>
            match getInputByPath fuel l h2 t2 with
            | none => none
            | some i => getInputByPath fuel l i t

/-- The embedding of LockFile::resolve_input.  A Direct reference resolves
to its name with no existence check; a Path reference splits off its first
element (an empty path panics the unwrap on first) and walks
get_input_by_path. -/
def LockFile.resolveInput (fuel : Nat) (l : LockFile) : InputRef → Option String
  | .direct i => some i
  | .path [] => none
  | .path (h :: t) => getInputByPath fuel l h t

/-- The embedding of LockFile::rm: remove the node, then (error when the
root node is missing afterwards) drop the entry of the same name from the
root inputs map when that map is present. -/
def LockFile.rm (l : LockFile) (name : String) : Option LockFile :=
  let nodes1 := eraseKey name l.nodes
  match findKey l.root nodes1 with
  | none => none
  | some rootNode =>
    let rootNode1 := { rootNode with inputs := rootNode.inputs.map (eraseKey name) }
    some { l with nodes := setNode l.root rootNode1 nodes1 }

/-- Rewrite every InputRef in the inputs map of a node, the body of the
rename loop of LockFile::rename_input. -/
def renameNode (orig new : String) (node : LockedRef) : LockedRef :=
  { node with inputs := node.inputs.map (mapVals (InputRef.rename orig new)) }

/-- The embedding of LockFile::rename_input: a no-op when the old name is
absent; otherwise rewrite every InputRef of every node, reinsert the node
found under the old key (after the rewrite, hence renameNode applied to the
old value) under the new key, and retain only entries with other keys. -/
def LockFile.renameInput (l : LockFile) (orig new : String) : LockFile :=
  match findKey orig l.nodes with
  | none => l
  | some node0 =>
    let nodes1 := mapVals (renameNode orig new) l.nodes
    let node := renameNode orig new node0
    { l with nodes := eraseAll orig (insertSorted new node nodes1) }

/-- Insert a name into the visited set (HashSet::insert), kept as a list in
first-insertion order. -/
def insertName (n : String) (s : List String) : List String :=
  if s.contains n then s else s ++ [n]

/-- The embedding of the while loop of LockFile::closure.  The queue is a
Vec popped from its end, modeled with the head of the list as the top; the
inputs of the popped node are resolved in map order and every target not
yet visited is pushed (the source checks against visited only, so a target
can sit in the queue twice).  A missing node is an error; fuel bounds the
iteration count, and none covers both. -/
def closureGo (l : LockFile) : Nat → List String → List String → Option (List String)
  | 0, _, _ => none
  | _ + 1, [], visited => some visited
  | fuel + 1, nodeName :: queueRest, visited =>
    let visited1 := insertName nodeName visited
    match findKey nodeName l.nodes with
    | none => none
    | some node =>
      let ins := node.inputs.getD []
      match ins.foldlM (fun q kv =>
          (l.resolveInput fuel kv.2).map fun next =>
            if visited1.contains next then q else next :: q) queueRest with
      | none => none
      | some queue1 => closureGo l fuel queue1 visited1

/-- The embedding of LockFile::closure: start queue and visited at the root
name. -/
def LockFile.closure (fuel : Nat) (l : LockFile) : Option (List String) :=
  closureGo l fuel [l.root] [l.root]

/-- The embedding of LockFile::trim: compute the closure, list the node keys
not contained in it (in map order), and rm each in turn. -/
def LockFile.trim (fuel : Nat) (l : LockFile) : Option LockFile :=
  match l.closure fuel with
  | none => none
  | some keep =>
    let removeList := (keysOf l.nodes).filter (fun n => ¬ keep.contains n)
    removeList.foldlM LockFile.rm l

/-- The per-lockfile body of the loop of LockFile::merge.  labels is the key
set of the original lockfiles map.  Step one plans a namespacing rename for
every node whose name is neither root nor a label; step two, for every root
input whose label is itself a project label, resolves the reference (the
resolve can panic) and plans a rename of the resolved node to that label,
overwriting any step-one plan of the same source; the plans are applied in
key order and finally root is renamed to the project label. -/
def mergeStepOne (fuel : Nat) (labels : List String) (name : String)
    (lf : LockFile) : Option LockFile :=
  let inputMap0 : AList String :=
    (keysOf lf.nodes).foldl (fun m k =>
      if k ≠ "root" ∧ ¬ labels.contains k then insertSorted k (name ++ "_" ++ k) m
      else m) []
  match findKey "root" lf.nodes with
  | none => none
  | some rootNode =>
    let rootIns := rootNode.inputs.getD []
    match rootIns.foldlM (fun m kv =>
        if labels.contains kv.1 then
          (lf.resolveInput fuel kv.2).map fun orig => insertSorted orig kv.1 m
        else some m) inputMap0 with
    | none => none
    | some inputMap =>
      let lf1 := inputMap.foldl (fun acc kv => acc.renameInput kv.1 kv.2) lf
      some (lf1.renameInput "root" name)

/-- The embedding of LockFile::merge: rename inside every per-project
lockfile (mergeStepOne), union all node maps in key order with later
inserts overwriting, insert a fresh root whose inputs point directly at
each project label, and trim. -/
def LockFile.merge (fuel : Nat) (lockfiles : AList LockFile) : Option LockFile :=
  let labels := keysOf lockfiles
  match lockfiles.foldlM (fun acc kv =>
      (mergeStepOne fuel labels kv.1 kv.2).map fun lf => acc ++ [(kv.1, lf)])
      ([] : AList LockFile) with
  | none => none
  | some processed =>
    let unionNodes := processed.foldl (fun m kv =>
      kv.2.nodes.foldl (fun m2 nodekv => insertSorted nodekv.1 nodekv.2 m2) m) []
    let rootNode : LockedRef :=
      { flake := none, locked := none, original := none
        inputs := some (labels.foldl (fun m n => insertSorted n (InputRef.direct n) m) []) }
    let merged : LockFile :=
      { nodes := insertSorted "root" rootNode unionNodes, root := "root", version := 7 }
    merged.trim fuel

/-! ## src/cli.rs: FlakeMetadata (the parsed builder metadata record) -/

/-- The embedding of cli.rs FlakeMetadata. -/
structure FlakeMetadata where
  description : Option String
  lastModified : Int
  locked : InputSpec
  locks : LockFile
  original : InputSpec
  originalUrl : String
  path : String
  resolved : InputSpec
  resolvedUrl : String
  revision : String
  url : String
deriving DecidableEq, Repr

/-- The final loop of LockFile::from_metadata: for each project in key
order, find its node in the merged lockfile (an error when absent) and set
the original and locked fields from the metadata. -/
def populate : LockFile → AList FlakeMetadata → Option LockFile
  | lf, [] => some lf
  | lf, (name, m) :: rest =>
    match findKey name lf.nodes with
    | none => none
    | some node =>
      let node1 := { node with original := some m.original, locked := some m.locked }
      populate { lf with nodes := setNode name node1 lf.nodes } rest

/-- The embedding of LockFile::from_metadata: merge the per-project locks
and then populate the pins of each project label node. -/
def LockFile.fromMetadata (fuel : Nat) (projects : AList FlakeMetadata) :
    Option LockFile :=
  let lockfiles := projects.map (fun kv => (kv.1, kv.2.locks))
  match LockFile.merge fuel lockfiles with
  | none => none
  | some lf => populate lf projects

/-! ## src/config.rs: update strategies and the workspace config -/

/-- The embedding of a parsed `git ls-remote` line (cli.rs GitRef). -/
structure GitRef where
  rev : String
  gitRef : String
deriving DecidableEq, Repr

/-- The embedding of config.rs UpdateStrategy. -/
inductive UpdateStrategy
  | latest
  | freeze
  | latestTag (glob : Option String)
  | branch (b : String)
deriving DecidableEq, Repr

/-- The embedding of UpdateStrategy::get_git_rev.  The subprocess listing
(Git::ls_remote, in the order printed by the tool under v:refname sorting)
and the glob matcher of the glob_match crate are passed as arguments; the
outer Option is the Result (none is an Err), the inner Option is the
optional revision. -/
def UpdateStrategy.getGitRev (globMatch : String → String → Bool)
    (s : UpdateStrategy) (revs : List GitRef) : Option (Option String) :=
  match s with
  | .latest =>
    match revs.find? (fun r => r.gitRef == "HEAD") with
    | some r => some (some r.rev)
    | none => none
  | .freeze => some none
  | .latestTag pattern =>
    let tagPattern := pattern.getD "*"
    let glob := "refs/tags/" ++ tagPattern
    some (((revs.filter (fun r => globMatch glob r.gitRef)).map (fun r => r.rev)).getLast?)
  | .branch b =>
    match revs.find? (fun r => r.gitRef == b) with
    | some r => some (some r.rev)
    | none => none

/-- The embedding of config.rs ProjectConfig (PathBuf kept as a string). -/
structure ProjectConfig where
  name : String
  url : String
  projectPath : Option String
  strategy : Option (AList UpdateStrategy)
deriving DecidableEq, Repr

/-- The embedding of config.rs EnvConfig. -/
structure EnvConfig where
  name : String
  strategy : UpdateStrategy
deriving DecidableEq, Repr

/-- The embedding of config.rs Config. -/
structure Config where
  environments : List EnvConfig
  projects : List ProjectConfig
  defaultEnv : String
deriving DecidableEq, Repr

/-- The embedding of Config::add_project: push a new ProjectConfig built
from the name, the printed flake url and the optional path onto the
projects list, unconditionally (the source performs no uniqueness check and
always returns Ok). -/
def Config.addProject (c : Config) (name : String) (flakeRef : FlakeRef)
    (path : Option String) : Config :=
  { c with projects := c.projects ++
      [{ name := name, url := flakeRef.flakeUrl, projectPath := path, strategy := none }] }

/-- The embedding of config.rs LocalProjectConfig. -/
structure LocalProjectConfig where
  editable : Bool
deriving DecidableEq, Repr

/-- The embedding of config.rs LocalConfig. -/
structure LocalConfig where
  projects : AList LocalProjectConfig
deriving DecidableEq, Repr

/-- The embedding of LocalConfig::unmark_editable. -/
def LocalConfig.unmarkEditable (lc : LocalConfig) (name : String) : LocalConfig :=
  { projects := insertSorted name { editable := false } lc.projects }

/-! ## src/workspace.rs: paths, the version-controlled file set, register -/

/-- A filesystem path as its list of components (the embedding of PathBuf,
where join and push append a component). -/
abbrev FsPath := List String

/-- The embedding of workspace.rs _config_path: root joined with the
CONFIG_PATH constant "nixspace.toml". -/
def configPath (root : FsPath) : FsPath := root ++ ["nixspace.toml"]

/-- The embedding of workspace.rs _lock_path: root joined with the
LOCKFILE_DIR constant ".nixspace" joined with `<env>.lock`. -/
def lockPath (root : FsPath) (env : String) : FsPath :=
  root ++ [".nixspace", env ++ ".lock"]

/-- The embedding of workspace.rs _local_path. -/
def localPath (root : FsPath) : FsPath := root ++ [".nixspace/local.json"]

/-- The embedding of Workspace::files: flake.nix, flake.lock, the config
path, then for every environment the component `<env>.lock` pushed directly
onto the root (the source does not join LOCKFILE_DIR here). -/
def files (root : FsPath) (envs : List String) : List FsPath :=
  [root ++ ["flake.nix"], root ++ ["flake.lock"], configPath root]
    ++ envs.map (fun env => root ++ [env ++ ".lock"])

/-- The paths Workspace::save writes the per-environment lockfiles to: for
every environment with a loaded lockfile, lock_path of that environment. -/
def savedLockPaths (root : FsPath) (envs : List String) : List FsPath :=
  envs.map (lockPath root)

/-- The embedding of the Workspace state that register touches. -/
structure Workspace where
  config : Config
  localConfig : LocalConfig
deriving DecidableEq, Repr

/-- The embedding of Workspace::register: Config::add_project followed by
LocalConfig::unmark_editable (always Ok). -/
def Workspace.register (ws : Workspace) (name : String) (flakeRef : FlakeRef)
    (path : Option String) : Workspace :=
  { config := ws.config.addProject name flakeRef path
    localConfig := ws.localConfig.unmarkEditable name }

/-! ## Supporting lemmas about the association list operations -/

theorem findKey_eraseAll {α : Type} (k j : String) (m : AList α) :
    findKey k (eraseAll j m) = if k = j then none else findKey k m := by
  induction m with
  | nil => by_cases h : k = j <;> simp [eraseAll, findKey, h]
  | cons kv rest ih =>
    obtain ⟨a, v⟩ := kv
    by_cases haj : a = j
    · subst haj
      by_cases hka : k = a <;> simp [eraseAll, findKey, List.filter_cons, hka] at ih ⊢
      · exact ih
      · exact ih
    · by_cases hka : k = a
      · subst hka
        simp [eraseAll, findKey, List.filter_cons, haj]
      · simp [eraseAll, findKey, List.filter_cons, haj, hka] at ih ⊢
        exact ih

theorem findKey_insertSorted_self {α : Type} (k : String) (v : α) (m : AList α) :
    findKey k (insertSorted k v m) = some v := by
  induction m with
  | nil => simp [insertSorted, findKey]
  | cons kv rest ih =>
    obtain ⟨j, w⟩ := kv
    by_cases hkj : k = j
    · simp [insertSorted, hkj, findKey]
    · by_cases hlt : strLt k j = true
      · simp [insertSorted, hkj, hlt, findKey]
      · simp [insertSorted, hkj, hlt, findKey, ih]

theorem findKey_insertSorted_ne {α : Type} (k j : String) (v : α) (m : AList α)
    (hne : k ≠ j) : findKey k (insertSorted j v m) = findKey k m := by
  induction m with
  | nil => simp [insertSorted, findKey, hne]
  | cons kv rest ih =>
    obtain ⟨a, w⟩ := kv
    by_cases hja : j = a
    · subst hja
      simp [insertSorted, findKey, hne]
    · by_cases hlt : strLt j a = true
      · simp [insertSorted, hja, hlt, findKey, hne]
      · by_cases hka : k = a
        · simp [insertSorted, hja, hlt, findKey, hka]
        · simp [insertSorted, hja, hlt, findKey, hka, ih]

theorem findKey_mapVals {α : Type} (f : α → α) (k : String) (m : AList α) :
    findKey k (mapVals f m) = (findKey k m).map f := by
  induction m with
  | nil => simp [mapVals, findKey]
  | cons kv rest ih =>
    obtain ⟨a, v⟩ := kv
    by_cases hka : k = a
    · simp [mapVals, findKey, hka]
    · simp [mapVals, findKey, hka] at ih ⊢
      exact ih

theorem findKey_setNode_self {α : Type} (k : String) (v : α) (m : AList α) :
    findKey k (setNode k v m) = (findKey k m).map (fun _ => v) := by
  induction m with
  | nil => simp [setNode, findKey]
  | cons kv rest ih =>
    obtain ⟨a, w⟩ := kv
    by_cases hka : k = a <;> simp [setNode, findKey, hka, ih]

theorem findKey_setNode_ne {α : Type} (k j : String) (v : α) (m : AList α)
    (hne : k ≠ j) : findKey k (setNode j v m) = findKey k m := by
  induction m with
  | nil => simp [setNode, findKey]
  | cons kv rest ih =>
    obtain ⟨a, w⟩ := kv
    by_cases hja : j = a
    · subst hja
      simp [setNode, findKey, hne, ih]
    · by_cases hka : k = a <;> simp [setNode, findKey, hja, hka, ih]

theorem findFirst_eq_head_filter {α : Type} (l : List α) (p : α → Bool) :
    l.find? p = (l.filter p).head? := by
  induction l with
  | nil => rfl
  | cons x xs ih =>
    by_cases h : p x
    · rw [List.find?_cons_of_pos _ h, List.filter_cons_of_pos h]
      rfl
    · rw [List.find?_cons_of_neg _ h, List.filter_cons_of_neg h, ih]

/-- Every key update that populate performs on the merged lockfile targets a
project name, so lookups of a name outside the remaining projects are
unchanged. -/
theorem populate_preserves :
    ∀ (rest : AList FlakeMetadata) (lf L : LockFile) (q : String),
      q ∉ rest.map Prod.fst → populate lf rest = some L →
      findKey q L.nodes = findKey q lf.nodes := by
  intro rest
  induction rest with
  | nil =>
    intro lf L q _ h
    simp [populate] at h
    subst h
    rfl
  | cons kv rest ih =>
    intro lf L q hq h
    obtain ⟨name, m⟩ := kv
    simp only [List.map_cons, List.mem_cons] at hq
    push_neg at hq
    obtain ⟨hqname, hqrest⟩ := hq
    simp only [populate] at h
    cases hfind : findKey name lf.nodes with
    | none => rw [hfind] at h; exact absurd h (by simp)
    | some node =>
      rw [hfind] at h
      have := ih _ _ q hqrest h
      rw [this, findKey_setNode_ne _ _ _ _ hqname]

/-- After a successful populate pass, every listed project name carries its
metadata pins, provided the project names are pairwise distinct. -/
theorem populate_pins :
    ∀ (projects : AList FlakeMetadata) (lf L : LockFile),
      (projects.map Prod.fst).Nodup → populate lf projects = some L →
      ∀ p m, (p, m) ∈ projects →
        ∃ node, findKey p L.nodes = some node
          ∧ node.locked = some m.locked ∧ node.original = some m.original := by
  intro projects
  induction projects with
  | nil =>
    intro lf L _ _ p m hm
    exact absurd hm (List.not_mem_nil _)
  | cons kv rest ih =>
    intro lf L hnd h p m hm
    obtain ⟨q, mq⟩ := kv
    simp only [List.map_cons, List.nodup_cons] at hnd
    obtain ⟨hqrest, hndrest⟩ := hnd
    simp only [populate] at h
    cases hfind : findKey q lf.nodes with
    | none => rw [hfind] at h; exact absurd h (by simp)
    | some node =>
      rw [hfind] at h
      rcases List.mem_cons.mp hm with heq | hmem
      · obtain ⟨hp, hmq⟩ := Prod.mk.injEq .. ▸ heq
        subst hp
        subst hmq
        refine ⟨{ node with original := some m.original, locked := some m.locked }, ?_, rfl, rfl⟩
        rw [populate_preserves _ _ _ _ hqrest h, findKey_setNode_self, hfind]
        rfl
      · exact ih _ _ hndrest h p m hmem

/-! ## Concrete objects used by the per-claim theorems -/

/-- A pinned leaf node without further inputs. -/
def nodeLeaf : LockedRef :=
  { flake := none, locked := none, original := none, inputs := none }

/-- A node with an empty inputs map. -/
def nodeNoInputs : LockedRef :=
  { flake := none, locked := none, original := none, inputs := some [] }

/-- Root node of the C4 lockfile: its single input is labelled B but refers
directly to node C. -/
def c4Root : LockedRef :=
  { flake := none, locked := none, original := none
    inputs := some [("B", InputRef.direct "C")] }

/-- The C4 lockfile: node B exists but nothing resolves to it, node C is
reachable through the root input labelled B. -/
def c4Lock : LockFile :=
  { nodes := [("B", nodeLeaf), ("C", nodeLeaf), ("root", c4Root)], root := "root", version := 7 }

/-- What trim produces from c4Lock: removing B through rm also deleted the
root inputs entry keyed B, the edge that made C reachable. -/
def c4Trimmed : LockFile :=
  { nodes := [("C", nodeLeaf), ("root", nodeNoInputs)], root := "root", version := 7 }

/-- The locked InputSpec of the C3 witness project. -/
def inSpecLocked : InputSpec :=
  { flakeType := .gitHub, narHash := none, url := some "github:chadac/a"
    owner := some "chadac", repo := some "a", dir := none, rev := some "r1"
    gitRef := none, revCount := none, lastModified := none }

/-- The original InputSpec of the C3 witness project, distinct from the
locked one. -/
def inSpecOriginal : InputSpec := { inSpecLocked with rev := none }

/-- The per-project lockfile of the C3 witness project: a single root node
with an empty inputs map. -/
def lockA : LockFile :=
  { nodes := [("root", nodeNoInputs)], root := "root", version := 7 }

/-- The builder metadata of the C3 witness project. -/
def metaA : FlakeMetadata :=
  { description := none, lastModified := 0, locked := inSpecLocked, locks := lockA
    original := inSpecOriginal, originalUrl := "", path := "", resolved := inSpecLocked
    resolvedUrl := "", revision := "", url := "" }

/-- The merged lockfile that from_metadata produces for the single project A
of the C3 witness. -/
def c3Merged : LockFile :=
  { nodes :=
      [("A", { flake := none, locked := some inSpecLocked, original := some inSpecOriginal
               inputs := some [] }),
       ("root", { flake := none, locked := none, original := none
                  inputs := some [("A", InputRef.direct "A")] })]
    root := "root", version := 7 }

/-- The C5 lockfile: the root input labelled a is a path reference starting
at a node name absent from the node map. -/
def c5Lock : LockFile :=
  { nodes :=
      [("root", { flake := none, locked := none, original := none
                  inputs := some [("a", InputRef.path ["missing", "x"])] })]
    root := "root", version := 7 }

/-- The component that InputRef::rename inspects: the whole value of a
Direct reference, the first element of a Path reference. -/
def refHead : InputRef → Option String
  | .direct n => some n
  | .path p => p.head?

/-- Node a of the C10 witness lockfile, with one input pointing at b. -/
def c10NodeA : LockedRef :=
  { flake := none, locked := none, original := none
    inputs := some [("x", InputRef.direct "b")] }

/-- The C10 witness lockfile with distinct nodes a and b. -/
def c10Lock : LockFile :=
  { nodes := [("a", c10NodeA), ("b", nodeLeaf), ("root", c4Root)], root := "root", version := 7 }

/-- The flake reference of the C9 worked example. -/
def c9Flake : FlakeRef := .simpleGit "github" "github.com/" "chadac" "a" none []

/-- The C9 workspace whose config already has a project named A. -/
def c9Workspace : Workspace :=
  { config :=
      { environments := [{ name := "dev", strategy := .latest }]
        projects := [{ name := "A", url := "github:chadac/a", projectPath := none, strategy := none }]
        defaultEnv := "dev" }
    localConfig := { projects := [] } }

/-! ## The claims -/

/-- C1: the claim states that printing a parsed reference reproduces the
input for every scheme of the grammar, gitlab and sourcehut included.  On
the gitlab input below parse succeeds but the printer emits the github
scheme (SimpleGitUrl::flake_url passes the literal "github" to
fmt_simple_url and ignores the stored scheme field), so the round trip
fails on the code. -/
theorem c1_gitlab_print_not_roundtrip :
    (parse "gitlab:chadac/nixspace").map FlakeRef.flakeUrl = some "github:chadac/nixspace"
    ∧ (parse "gitlab:chadac/nixspace").map FlakeRef.flakeUrl ≠ some "gitlab:chadac/nixspace" := by
  decide

/-- C2: the claim states that LockFile::empty() returns, without panicking,
a lockfile with the single node root.  In the source empty() calls
from_nodes, which calls LockedRef::root, whose body is the todo macro: the
call panics unconditionally, modeled as none. -/
theorem c2_empty_panics : LockFile.empty = none := rfl

/-- C3: for every merge input whose project names are pairwise distinct (they
are the keys of a map), when from_metadata returns a merged lockfile, every
project label carries the locked and original InputSpecs of its metadata. -/
theorem c3_from_metadata_sets_pins (fuel : Nat) (projects : AList FlakeMetadata)
    (L : LockFile) (hnd : (projects.map Prod.fst).Nodup)
    (h : LockFile.fromMetadata fuel projects = some L) :
    ∀ p m, (p, m) ∈ projects →
      ∃ node, findKey p L.nodes = some node
        ∧ node.locked = some m.locked ∧ node.original = some m.original := by
  intro p m hm
  simp only [LockFile.fromMetadata] at h
  cases hmerge : LockFile.merge fuel (projects.map fun kv => (kv.1, kv.2.locks)) with
  | none =>
    rw [hmerge] at h
    exact absurd h (by simp)
  | some lf =>
    rw [hmerge] at h
    exact populate_pins projects lf L hnd h p m hm

theorem c3_from_metadata_sets_pins_witness :
    ∃ node, findKey "A" c3Merged.nodes = some node
      ∧ node.locked = some metaA.locked ∧ node.original = some metaA.original :=
  c3_from_metadata_sets_pins 20 [("A", metaA)] c3Merged (by decide) (by decide) "A" metaA
    (by decide)

/-- C4: the claim states that for a well-formed lockfile, after trim the
closure equals the key set and trim is idempotent.  c4Lock is well formed in
the sense of the claim (root present, every reference resolves to a present
key, witnessed by the successful closure below), yet after one trim the
closure is the root alone while node C is still a key, and a second trim
removes C, so trim is not idempotent: rm inside trim also deletes the root
inputs entry keyed by the removed name, severing the edge to C. -/
theorem c4_trim_breaks_closure_invariant :
    c4Lock.closure 10 = some ["root", "C"]
    ∧ c4Lock.trim 10 = some c4Trimmed
    ∧ c4Trimmed.closure 10 = some ["root"]
    ∧ keysOf c4Trimmed.nodes = ["C", "root"]
    ∧ c4Trimmed.trim 10 ≠ some c4Trimmed := by
  decide

/-- C5: the claim states that resolve_input returns a MalformedLockfile
error value, not a panic, when a traversal step names an absent node.  In
the source resolve_input returns a plain String and get_input_by_path
unwraps the node lookup, so on the reference below (whose path starts at a
node absent from c5Lock) the code panics: the embedding returns none at
every fuel, never a value. -/
theorem c5_resolve_input_panics_on_missing_node :
    ∀ fuel, c5Lock.resolveInput fuel (.path ["missing", "x"]) = none := by
  intro fuel
  cases fuel with
  | zero => rfl
  | succ n =>
    cases n with
    | zero => rfl
    | succ m => rfl

/-- C6: the claim states that files() lists the per-environment lockfile at
root/.nixspace/env.lock, the path lock_path returns and save writes.  In the
source files() pushes the component env.lock directly onto the root without
the .nixspace directory, so the listed path differs from the saved one. -/
theorem c6_files_disagrees_with_lock_path :
    files ["ws"] ["dev"]
      = [["ws", "flake.nix"], ["ws", "flake.lock"], ["ws", "nixspace.toml"], ["ws", "dev.lock"]]
    ∧ lockPath ["ws"] "dev" = ["ws", ".nixspace", "dev.lock"]
    ∧ savedLockPaths ["ws"] ["dev"] = [["ws", ".nixspace", "dev.lock"]]
    ∧ lockPath ["ws"] "dev" ∉ files ["ws"] ["dev"] := by
  decide

/-- C7 counterexample: parsing a Mercurial URL succeeds, yet its
git_remote_url is absent, against the claim that it equals the printed
remote form as for Git references. -/
theorem c7_mercurial_git_remote_url_absent_counterexample :
    (parse "mc+https://github.com/chadac/nixspace").isSome = true
    ∧ (parse "mc+https://github.com/chadac/nixspace").bind FlakeRef.gitRemoteUrl = none := by
  decide

/-- C7 (amended): for every reference of Mercurial type, git_remote_url is
absent; the source MercurialUrl::git_remote_url returns None, unlike
GitUrl::git_remote_url. -/
theorem c7_mercurial_git_remote_url_absent (r : FlakeRef)
    (h : r.flakeType = FlakeType.mercurial) : r.gitRemoteUrl = none := by
  cases r <;> first
    | rfl
    | simp [FlakeRef.flakeType] at h

theorem c7_mercurial_git_remote_url_absent_witness :
    FlakeRef.gitRemoteUrl (.mercurial "https" (some "github.com") "/chadac/nixspace" []) = none :=
  c7_mercurial_git_remote_url_absent
    (.mercurial "https" (some "github.com") "/chadac/nixspace" []) rfl

/-- C8: under LatestTag the resolver considers exactly the listing entries
whose ref matches the glob refs/tags/(glob), with the glob defaulting to the
star pattern when absent, and returns the rev of the last matching entry in
the supplied order (none when nothing matches); LatestTag none and LatestTag
(some star) coincide on every listing and every matcher. -/
theorem c8_latest_tag_last_matching (globMatch : String → String → Bool)
    (revs : List GitRef) (pattern : Option String) :
    UpdateStrategy.getGitRev globMatch (.latestTag none) revs
      = UpdateStrategy.getGitRev globMatch (.latestTag (some "*")) revs
    ∧ UpdateStrategy.getGitRev globMatch (.latestTag pattern) revs
      = some ((revs.reverse.find? (fun r =>
          globMatch ("refs/tags/" ++ pattern.getD "*") r.gitRef)).map (fun r => r.rev)) := by
  constructor
  · rfl
  · have h1 : revs.reverse.find? (fun r =>
        globMatch ("refs/tags/" ++ pattern.getD "*") r.gitRef)
        = (revs.filter (fun r =>
            globMatch ("refs/tags/" ++ pattern.getD "*") r.gitRef)).getLast? := by
      rw [findFirst_eq_head_filter, List.filter_reverse, List.head?_reverse]
    simp only [UpdateStrategy.getGitRev]
    rw [h1, List.getLast?_map]

/-- C9 counterexample: registering the already taken name A appends a second
project entry named A, so the pairwise distinctness of project names is not
preserved by register (neither Workspace::register nor Config::add_project
checks the name). -/
theorem c9_register_taken_name_duplicates :
    ((c9Workspace.register "A" c9Flake none).config.projects.map ProjectConfig.name) = ["A", "A"]
    ∧ ¬ ((c9Workspace.register "A" c9Flake none).config.projects.map ProjectConfig.name).Nodup
    ∧ (c9Workspace.config.projects.map ProjectConfig.name).Nodup := by
  decide

/-- C9 (amended): register appends unconditionally, so it preserves the
distinctness of project names exactly when the registered name is fresh:
with pairwise-distinct names and a name not already taken, the names after
register are still pairwise distinct. -/
theorem c9_register_fresh_name_preserves_distinct (ws : Workspace) (name : String)
    (fr : FlakeRef) (path : Option String)
    (hnd : (ws.config.projects.map ProjectConfig.name).Nodup)
    (hfresh : name ∉ ws.config.projects.map ProjectConfig.name) :
    ((ws.register name fr path).config.projects.map ProjectConfig.name).Nodup := by
  simp only [Workspace.register, Config.addProject, List.map_append, List.map_cons,
    List.map_nil]
  simp [List.nodup_append, hnd, hfresh]

theorem c9_register_fresh_name_preserves_distinct_witness :
    ((c9Workspace.register "B" c9Flake none).config.projects.map ProjectConfig.name).Nodup :=
  c9_register_fresh_name_preserves_distinct c9Workspace "B" c9Flake none (by decide) (by decide)

/-- C10: renaming an existing node old to an existing distinct node new
never fails: the node stored under new afterwards is the former old node
(with its own references rewritten like every other node), the key old is
gone, every other key still holds its former node with references
rewritten, and the rewrite touches exactly the references whose head equals
old - the whole value of a Direct, the first element of a Path. -/
theorem c10_rename_input_overwrites_new (l : LockFile) (old new : String)
    (hne : old ≠ new)
    (hold : (findKey old l.nodes).isSome = true)
    (_hnew : (findKey new l.nodes).isSome = true) :
    findKey new (l.renameInput old new).nodes = (findKey old l.nodes).map (renameNode old new)
    ∧ findKey old (l.renameInput old new).nodes = none
    ∧ (∀ k, k ≠ old → k ≠ new →
        findKey k (l.renameInput old new).nodes = (findKey k l.nodes).map (renameNode old new))
    ∧ (∀ r, refHead r ≠ some old → InputRef.rename old new r = r)
    ∧ InputRef.rename old new (.direct old) = .direct new
    ∧ (∀ t, InputRef.rename old new (.path (old :: t)) = .path (new :: t)) := by
  obtain ⟨node0, h0⟩ := Option.isSome_iff_exists.mp hold
  refine ⟨?_, ?_, ?_, ?_, ?_, ?_⟩
  · simp only [LockFile.renameInput, h0]
    rw [findKey_eraseAll, if_neg (Ne.symm hne), findKey_insertSorted_self]
    rfl
  · simp only [LockFile.renameInput, h0]
    rw [findKey_eraseAll, if_pos rfl]
  · intro k hko hkn
    simp only [LockFile.renameInput, h0]
    rw [findKey_eraseAll, if_neg hko, findKey_insertSorted_ne _ _ _ _ hkn, findKey_mapVals]
  · intro r hr
    cases r with
    | direct n =>
      simp only [refHead, ne_eq, Option.some_inj] at hr
      simp [InputRef.rename, hr]
    | path p =>
      cases p with
      | nil => rfl
      | cons h t =>
        simp only [refHead, List.head?_cons, ne_eq, Option.some_inj] at hr
        simp [InputRef.rename, hr]
  · simp [InputRef.rename]
  · intro t
    simp [InputRef.rename]

theorem c10_rename_input_overwrites_new_witness :
    findKey "b" (c10Lock.renameInput "a" "b").nodes
        = (findKey "a" c10Lock.nodes).map (renameNode "a" "b")
    ∧ findKey "a" (c10Lock.renameInput "a" "b").nodes = none
    ∧ (∀ k, k ≠ "a" → k ≠ "b" →
        findKey k (c10Lock.renameInput "a" "b").nodes
          = (findKey k c10Lock.nodes).map (renameNode "a" "b"))
    ∧ (∀ r, refHead r ≠ some "a" → InputRef.rename "a" "b" r = r)
    ∧ InputRef.rename "a" "b" (.direct "a") = .direct "b"
    ∧ (∀ t, InputRef.rename "a" "b" (.path ("a" :: t)) = .path ("b" :: t)) :=
  c10_rename_input_overwrites_new c10Lock "a" "b" (by decide) (by decide) (by decide)

end Nixspace
